import Mathlib

/-!
# Verification of the WYGIWYH exchange-rate core

Shallow embedding of the exchange-rate scheduling, upsert and transitive-rate
logic of `apps/currencies` (files `models.py`,
`exchange_rates/fetcher.py`, `exchange_rates/providers/transitive_rate.py`).

Modelling conventions:
* Python `Decimal` values are modelled as exact rationals (`ℚ`); the default
  28-significant-digit context rounding of the `decimal` module is not
  modelled.  Division by a zero `Decimal`, which raises in Python, is modelled
  by an explicit `Except` error.
* Database rows (`ExchangeRate` records) are modelled as a Lean list in
  insertion order; Django's `objects.create` appends, and
  `filter(...).order_by("-date").first()` is modelled by scanning for the
  row with the maximal `date` among the matching ones.
* Timestamps are whole seconds since the epoch (`ℤ`); `timezone.now()` is in
  UTC, so `datetime.replace(minute=0, second=0, microsecond=0)` is the
  truncation `t - t % 3600`.
* Python string functions (`str.strip`, `str.split`, `int(...)`) are modelled
  character-exactly for ASCII input (including `int`'s tolerance for
  surrounding whitespace, one sign, and single underscores between digits).
* Exceptions are modelled with `Except String`; a `try/except` block is a
  `match` on the result.
-/

/-! ## Python string primitives -/

/-- ASCII whitespace as recognised by Python's `str.strip` / `int`. -/
def isPyWhitespace (c : Char) : Bool :=
  c = ' ' || c = '\t' || c = '\n' || c = '\x0d' || c = '\x0b' || c = '\x0c'

/-- Python `str.strip()` on a character list. -/
def pyStrip (l : List Char) : List Char :=
  ((l.dropWhile isPyWhitespace).reverse.dropWhile isPyWhitespace).reverse

/-- Python `str.split(sep)` with an explicit one-character separator:
splits at every occurrence and keeps empty pieces (`"".split(",") == [""]`). -/
def splitOnChar (sep : Char) : List Char → List (List Char)
  | [] => [[]]
  | c :: rest =>
    match splitOnChar sep rest with
    | [] => [[]]
    | g :: gs => if c = sep then [] :: g :: gs else (c :: g) :: gs

/-- Value of a list of decimal digits. -/
def digitsVal (l : List Char) : ℕ :=
  l.foldl (fun a c => a * 10 + (c.toNat - '0'.toNat)) 0

/-- A digit body as accepted by Python's `int`: non-empty, digits with
optional single underscores strictly between digits. -/
def validIntBody (l : List Char) : Bool :=
  decide (l ≠ []) &&
  l.all (fun c => c.isDigit || c = '_') &&
  decide (l.head? ≠ some '_') &&
  decide (l.getLast? ≠ some '_') &&
  (l.zip l.tail).all (fun p => !(p.1 = '_' && p.2 = '_'))

/-- Python `int(s)` on an ASCII string: strips whitespace, allows one leading
sign, then a digit body; returns `none` where Python raises `ValueError`. -/
def pyIntParse (s : String) : Option ℤ :=
  let l := pyStrip s.toList
  let signBody : ℤ × List Char :=
    match l with
    | '+' :: rest => (1, rest)
    | '-' :: rest => (-1, rest)
    | _ => (1, l)
  if validIntBody signBody.2 then
    some (signBody.1 * (digitsVal (signBody.2.filter (fun c => c ≠ '_')) : ℤ))
  else
    none

/-! ## `ExchangeRateService._parse_hour_ranges` (models.py lines 182-212) -/

/-- One loop iteration of `_parse_hour_ranges`: parse a single
comma-separated token (after the per-part `strip`).  Mirrors the source:
a part containing `-` is unpacked into exactly two pieces, both converted
with `int`, bounds-checked, order-checked, and expanded with
`range(start, end + 1)`; otherwise the part is a single `int`, bounds-checked. -/
def parseToken (part0 : List Char) : Except String (Finset ℕ) :=
  let part := pyStrip part0
  if part.contains '-' then
    match splitOnChar '-' part with
    | [a, b] =>
      match pyIntParse ⟨a⟩, pyIntParse ⟨b⟩ with
      | some st, some en =>
        if ¬(0 ≤ st ∧ st ≤ 23 ∧ 0 ≤ en ∧ en ≤ 23) then
          .error "Hours must be between 0 and 23"
        else if st > en then
          .error "Invalid range"
        else
          .ok (Finset.Icc st.toNat en.toNat)
      | _, _ => .error "invalid literal for int"
    | _ => .error "cannot unpack"
  else
    match pyIntParse ⟨part⟩ with
    | some h =>
      if 0 ≤ h ∧ h ≤ 23 then .ok ({h.toNat} : Finset ℕ)
      else .error "Hours must be between 0 and 23"
    | none => .error "invalid literal for int"

/-- The accumulation loop of `_parse_hour_ranges`: the first failing token
aborts with its error, otherwise the per-token hour sets are unioned. -/
def parseHourLoop : List (List Char) → Finset ℕ → Except String (Finset ℕ)
  | [], acc => .ok acc
  | p :: ps, acc =>
    match parseToken p with
    | .error e => .error e
    | .ok hs => parseHourLoop ps (acc ∪ hs)

/-- The comma-separated tokens of `interval_str.strip().split(",")`. -/
def hourParts (interval_str : String) : List (List Char) :=
  splitOnChar ',' (pyStrip interval_str.toList)

/-- `ExchangeRateService._parse_hour_ranges` (models.py lines 182-212). -/
def parse_hour_ranges (interval_str : String) : Except String (Finset ℕ) :=
  parseHourLoop (hourParts interval_str) ∅

/-- `true` on `.ok`, `false` on `.error`. -/
def exceptOk {α : Type} (x : Except String α) : Bool :=
  match x with
  | .ok _ => true
  | .error _ => false

/-- The `.ok` value of an `Except`, if any. -/
def exceptToOption {α : Type} (x : Except String α) : Option α :=
  match x with
  | .ok a => some a
  | .error _ => none

/-- Modelled from the claim's words (C8): a well-formed token is a single
integer in `[0,23]`, or a `low-high` range with both bounds in `[0,23]` and
`low ≤ high`; its cover is the singleton hour, resp. all hours of the range.
`none` encodes the claim's three failure conditions: an integer outside
`[0,23]`, a range with start greater than end, or a token that is not
parseable as an integer or range. -/
def tokenSetSpec (part0 : List Char) : Option (Finset ℕ) :=
  let part := pyStrip part0
  if part.contains '-' then
    match splitOnChar '-' part with
    | [a, b] =>
      match pyIntParse ⟨a⟩, pyIntParse ⟨b⟩ with
      | some st, some en =>
        if 0 ≤ st ∧ st ≤ 23 ∧ 0 ≤ en ∧ en ≤ 23 ∧ st ≤ en then
          some (Finset.Icc st.toNat en.toNat)
        else none
      | _, _ => none
    | _ => none
  else
    match pyIntParse ⟨part⟩ with
    | some h => if 0 ≤ h ∧ h ≤ 23 then some ({h.toNat} : Finset ℕ) else none
    | none => none

/-! ## `ExchangeRateFetcher._should_fetch_at_hour` (fetcher.py lines 25-91) -/

/-- `ExchangeRateService.IntervalType` (models.py lines 110-113). -/
inductive IntervalType : Type
  | ON : IntervalType
  | EVERY : IntervalType
  | NOT_ON : IntervalType
deriving DecidableEq, Repr

/-- The fields of `ExchangeRateService` used by the schedule check.
`last_fetch` is seconds since the epoch (UTC). -/
structure Service : Type where
  interval_type : IntervalType
  fetch_interval : String
  last_fetch : Option ℤ
deriving Repr

/-- `datetime.replace(minute=0, second=0, microsecond=0)` on a UTC epoch
timestamp in seconds. -/
def truncHour (t : ℤ) : ℤ := t - t % 3600

/-- `(now - last_fetch).total_seconds() / 3600` after both ends are truncated
to the hour; the difference is an exact multiple of 3600, so integer division
is exact. -/
def hoursBetween (last_fetch now : ℤ) : ℤ :=
  (truncHour now - truncHour last_fetch) / 3600

/-- The body of `_should_fetch_at_hour` before the outer
`except ValueError: return False`.  An `.error` is a `ValueError` escaping
to the outer handler; the EVERY branch has its own inner handler and
therefore never propagates a parse error (`int(...)` failure yields
`.ok false` directly, as in fetcher.py lines 80-85). -/
def shouldFetchBody (s : Service) (current_hour : ℕ) (now : ℤ) : Except String Bool :=
  match s.interval_type with
  | .NOT_ON =>
    match parse_hour_ranges s.fetch_interval with
    | .error e => .error e
    | .ok blocked_hours => .ok (decide (current_hour ∉ blocked_hours))
  | .ON =>
    match parse_hour_ranges s.fetch_interval with
    | .error e => .error e
    | .ok allowed_hours => .ok (decide (current_hour ∈ allowed_hours))
  | .EVERY =>
    match pyIntParse s.fetch_interval with
    | none => .ok false
    | some interval_hours =>
      match s.last_fetch with
      | none => .ok true
      | some last_fetch => .ok (decide (hoursBetween last_fetch now ≥ interval_hours))

/-- `ExchangeRateFetcher._should_fetch_at_hour` (fetcher.py lines 25-91):
the body wrapped in `try ... except ValueError: return False`. -/
def _should_fetch_at_hour (s : Service) (current_hour : ℕ) (now : ℤ) : Bool :=
  match shouldFetchBody s current_hour now with
  | .ok b => b
  | .error _ => false

/-! ## The `_fetch_service_rates` upsert loop (fetcher.py lines 190-258) -/

/-- An `ExchangeRate` row (models.py lines 60-95).  Currencies are their ids,
`date` is an abstract timestamp. -/
structure ExchangeRateRec : Type where
  from_currency : ℕ
  to_currency : ℕ
  rate : ℚ
  date : ℕ
  automatic : Bool
deriving DecidableEq, Repr

/-- The filter
`ExchangeRate.objects.filter(automatic=True, from_currency=f, to_currency=t)`. -/
def matchesAuto (f t : ℕ) (e : ExchangeRateRec) : Bool :=
  e.automatic && e.from_currency == f && e.to_currency == t

/-- Scan helper for `order_by("-date").first()`: carries the index and date of
the best (maximal-date) matching row so far. -/
def mostRecentAutoIdxAux (f t : ℕ) : List ExchangeRateRec → ℕ → Option (ℕ × ℕ) → Option (ℕ × ℕ)
  | [], _, best => best
  | e :: rest, i, best =>
    let best' :=
      if matchesAuto f t e then
        match best with
        | none => some (i, e.date)
        | some (j, d) => if e.date > d then some (i, e.date) else some (j, d)
      else best
    mostRecentAutoIdxAux f t rest (i + 1) best'

/-- Index (into the row list) of the most recent automatic row for the pair
`(f, t)`, i.e. `filter(automatic=True, from_currency=f, to_currency=t)
.order_by("-date").first()`.  Ties on `date` cannot occur when the
`unique_together = (from_currency, to_currency, date)` constraint holds; the
model keeps the earliest row among equal dates. -/
def mostRecentAutoIdx (db : List ExchangeRateRec) (f t : ℕ) : Option ℕ :=
  (mostRecentAutoIdxAux f t db 0 none).map (fun p => p.1)

/-- Replace the element at an index (used for `exchange_rate.save()` of a
mutated row). -/
def updateAt {α : Type} : List α → ℕ → (α → α) → List α
  | [], _, _ => []
  | x :: xs, 0, f => f x :: xs
  | x :: xs, n + 1, f => x :: updateAt xs n f

/-- One create-or-update against the row list, for the already-resolved pair
`(f, t)` (fetcher.py lines 201-226 resp. 231-256; the two source branches are
textually identical up to the swap performed by the caller): under
`singleton` look up the most recent automatic row for the pair and overwrite
its `rate` and `date`, otherwise (or when none exists) append a fresh
automatic row dated `now`. -/
def upsert (singleton : Bool) (now : ℕ) (db : List ExchangeRateRec)
    (f t : ℕ) (r : ℚ) : List ExchangeRateRec :=
  let found : Option ℕ := if singleton then mostRecentAutoIdx db f t else none
  match found with
  | none => db ++ [⟨f, t, r, now, true⟩]
  | some i => updateAt db i (fun e => { e with rate := r, date := now })

/-- The mutable state of the `for from_currency, to_currency, rate in rates`
loop: the `ExchangeRate` table and the `processed_pairs` set. -/
structure FetchState : Type where
  db : List ExchangeRateRec
  processed : Finset (ℕ × ℕ)

/-- One iteration of the loop (fetcher.py lines 193-258): skip when the raw
`(from_currency.id, to_currency.id)` key is in `processed_pairs`; otherwise
upsert under the provider's inversion convention and record the *resolved*
pair — `(to, from)` in the inverted branch (line 228), `(from, to)` otherwise
(line 258). -/
def processTuple (rates_inverted singleton : Bool) (now : ℕ)
    (st : FetchState) (tup : ℕ × ℕ × ℚ) : FetchState :=
  let from_currency := tup.1
  let to_currency := tup.2.1
  let rate := tup.2.2
  if (from_currency, to_currency) ∈ st.processed then st
  else if rates_inverted then
    { db := upsert singleton now st.db to_currency from_currency rate
      processed := insert (to_currency, from_currency) st.processed }
  else
    { db := upsert singleton now st.db from_currency to_currency rate
      processed := insert (from_currency, to_currency) st.processed }

/-- The whole loop over the provider's result sequence, starting from a given
table and an empty `processed_pairs` (the subsequent `service.last_fetch`
update does not touch the rate table and is not modelled). -/
def fetchBatch (rates_inverted singleton : Bool) (now : ℕ)
    (db0 : List ExchangeRateRec) (rates : List (ℕ × ℕ × ℚ)) : FetchState :=
  rates.foldl (processTuple rates_inverted singleton now) ⟨db0, ∅⟩

/-- Rows currently stored for the ordered pair `(f, t)`. -/
def countPair (db : List ExchangeRateRec) (f t : ℕ) : ℕ :=
  (db.filter (fun e => e.from_currency == f && e.to_currency == t)).length

/-! ## `TransitiveRateProvider` graph (transitive_rate.py lines 65-104) -/

/-- Adjacency of one currency node: a Python dict in insertion order. -/
abbrev AdjList : Type := List (ℕ × ℚ)

/-- The graph `Dict[int, Dict[int, Decimal]]`, in insertion order. -/
abbrev CurrencyGraph : Type := List (ℕ × AdjList)

/-- Dict lookup in an adjacency list (first binding wins; dicts never hold
duplicate keys, but the model tolerates them). -/
def lookupAdj : AdjList → ℕ → Option ℚ
  | [], _ => none
  | (k, w) :: rest, v => if k = v then some w else lookupAdj rest v

/-- Dict lookup of a node's adjacency (`graph[u]` / `u in graph`). -/
def lookupNode : CurrencyGraph → ℕ → Option AdjList
  | [], _ => none
  | (k, a) :: rest, u => if k = u then some a else lookupNode rest u

/-- `graph.get(u, {})`. -/
def adjOf (g : CurrencyGraph) (u : ℕ) : AdjList :=
  (lookupNode g u).getD []

/-- `graph[u][v] = w` including the `if u not in graph: graph[u] = {}`
guard: update the binding in place when present, else append. -/
def updAssoc : AdjList → ℕ → ℚ → AdjList
  | [], v, w => [(v, w)]
  | (k, w') :: rest, v, w =>
    if k = v then (k, w) :: rest else (k, w') :: updAssoc rest v w

/-- Set one directed edge of the graph. -/
def setEdge : CurrencyGraph → ℕ → ℕ → ℚ → CurrencyGraph
  | [], u, v, w => [(u, [(v, w)])]
  | (k, a) :: rest, u, v, w =>
    if k = u then (k, updAssoc a v w) :: rest else (k, a) :: setEdge rest u v w

/-- `graph[u][v]` as a partial lookup. -/
def edgeW (g : CurrencyGraph) (u v : ℕ) : Option ℚ :=
  lookupAdj (adjOf g u) v

/-- One iteration of `_build_currency_graph`'s loop (transitive_rate.py lines
70-78): add the forward edge, then the reciprocal edge
`Decimal("1") / rate.rate` — which raises `DivisionByZero` when the stored
rate is zero. -/
def addRateEdges (g : CurrencyGraph) (e : ExchangeRateRec) : Except String CurrencyGraph :=
  let g1 := setEdge g e.from_currency e.to_currency e.rate
  if e.rate = 0 then .error "DivisionByZero"
  else .ok (setEdge g1 e.to_currency e.from_currency (1 / e.rate))

/-- The loop of `_build_currency_graph` over the rate rows. -/
def buildGraphLoop (g : CurrencyGraph) : List ExchangeRateRec → Except String CurrencyGraph
  | [] => .ok g
  | e :: rest =>
    match addRateEdges g e with
    | .error msg => .error msg
    | .ok g' => buildGraphLoop g' rest

/-- `TransitiveRateProvider._build_currency_graph` (transitive_rate.py lines
65-80). -/
def _build_currency_graph (rates : List ExchangeRateRec) : Except String CurrencyGraph :=
  buildGraphLoop [] rates

/-! ## `TransitiveRateProvider._find_conversion_path` (lines 82-104) -/

/-- A queue entry `(current, path, current_rate)`. -/
abbrev BfsEntry : Type := ℕ × List ℕ × ℚ

/-- One neighbour step of the expansion loop (transitive_rate.py lines
99-102): skip visited neighbours, otherwise mark visited and append to the
queue with the extended path and multiplied rate. -/
def expandStep (path : List ℕ) (current_rate : ℚ)
    (st : List BfsEntry × Finset ℕ) (nw : ℕ × ℚ) : List BfsEntry × Finset ℕ :=
  if nw.1 ∈ st.2 then st
  else (st.1 ++ [(nw.1, path ++ [nw.1], current_rate * nw.2)], insert nw.1 st.2)

/-- The `while queue:` loop, with fuel.  Each iteration pops the head entry,
returns it when it reached the target, and otherwise folds `expandStep` over
`graph.get(current, {}).items()`.  Every enqueue adds a fresh node to
`visited`, so the number of pops over a whole run is at most one (the seed
entry) plus the total number of adjacency bindings in the graph; `bfsFuel`
below is exactly that bound, hence the fuel-out branch is unreachable and
the model agrees with the unbounded Python loop. -/
def bfsAux (g : CurrencyGraph) (to_id : ℕ) :
    ℕ → List BfsEntry → Finset ℕ → Option (List ℕ × ℚ)
  | 0, _, _ => none
  | _ + 1, [], _ => none
  | fuel + 1, (current, path, current_rate) :: rest, visited =>
    if current = to_id then some (path, current_rate)
    else
      let st := (adjOf g current).foldl (expandStep path current_rate) (rest, visited)
      bfsAux g to_id fuel st.1 st.2

/-- Sufficient fuel for `bfsAux`: one pop for the seed entry plus one for
each adjacency binding anywhere in the graph. -/
def bfsFuel (g : CurrencyGraph) : ℕ :=
  1 + (g.map (fun p => p.2.length)).sum

/-- `TransitiveRateProvider._find_conversion_path` (transitive_rate.py lines
82-104): endpoint membership check, then BFS from
`[(from_id, [from_id], Decimal("1"))]` with `visited = {from_id}`; returns
`(None, None)` when either endpoint is missing or the queue empties. -/
def _find_conversion_path (g : CurrencyGraph) (from_id to_id : ℕ) :
    Option (List ℕ) × Option ℚ :=
  if (lookupNode g from_id).isNone || (lookupNode g to_id).isNone then (none, none)
  else
    match bfsAux g to_id (bfsFuel g) [(from_id, [from_id], 1)] {from_id} with
    | some (path, rate) => (some path, some rate)
    | none => (none, none)

/-! ## Path validity (specification side) -/

/-- Composed rate of the edge chain `u :: rest`, seeded at `1`: `some` of the
product of the edge weights when every consecutive pair is an edge of the
graph. -/
def chainRate (g : CurrencyGraph) : ℕ → List ℕ → Option ℚ
  | _, [] => some 1
  | u, v :: vs =>
    match edgeW g u v, chainRate g v vs with
    | some w, some r => some (w * r)
    | _, _ => none

/-- Composed rate of a whole path (empty paths are invalid). -/
def pathRate (g : CurrencyGraph) : List ℕ → Option ℚ
  | [] => none
  | u :: vs => chainRate g u vs

/-- `p` is a chain of edges of `g` from `s` to `t` whose composed rate
(product of edge weights, seed `1`) is `r`. -/
def ValidPath (g : CurrencyGraph) (s t : ℕ) (p : List ℕ) (r : ℚ) : Prop :=
  p.head? = some s ∧ p.getLast? = some t ∧ pathRate g p = some r

/-! ## Lemmas: hour-set parser -/

lemma exceptToOption_eq_some {α : Type} (x : Except String α) (a : α) :
    exceptToOption x = some a ↔ x = .ok a := by
  cases x <;> simp [exceptToOption]

lemma exceptOk_eq_isSome {α : Type} (x : Except String α) :
    exceptOk x = (exceptToOption x).isSome := by
  cases x <;> rfl

/-- The per-token implementation agrees with the claim-side token reading:
`ok` exactly on well-formed tokens, with the covered hour set. -/
lemma parseToken_toOption (p : List Char) :
    exceptToOption (parseToken p) = tokenSetSpec p := by
  unfold parseToken tokenSetSpec
  by_cases hc : (pyStrip p).contains '-'
  · simp only [hc, if_true]
    cases hs : splitOnChar '-' (pyStrip p) with
    | nil => simp [exceptToOption]
    | cons a rest =>
      cases rest with
      | nil => simp [exceptToOption]
      | cons b rest2 =>
        cases rest2 with
        | nil =>
          cases hA : pyIntParse ⟨a⟩ with
          | none => simp [hA, exceptToOption]
          | some st =>
            cases hB : pyIntParse ⟨b⟩ with
            | none => simp [hA, hB, exceptToOption]
            | some en =>
              by_cases hbound : 0 ≤ st ∧ st ≤ 23 ∧ 0 ≤ en ∧ en ≤ 23
              · by_cases hord : st > en
                · have hns : ¬(0 ≤ st ∧ st ≤ 23 ∧ 0 ≤ en ∧ en ≤ 23 ∧ st ≤ en) := by omega
                  simp only [hA, hB]
                  rw [if_neg (by omega), if_pos (by omega), if_neg hns]
                  simp [exceptToOption]
                · have hyes : 0 ≤ st ∧ st ≤ 23 ∧ 0 ≤ en ∧ en ≤ 23 ∧ st ≤ en := by omega
                  simp only [hA, hB]
                  rw [if_neg (by omega), if_neg (by omega), if_pos hyes]
                  simp [exceptToOption]
              · have hns : ¬(0 ≤ st ∧ st ≤ 23 ∧ 0 ≤ en ∧ en ≤ 23 ∧ st ≤ en) := by omega
                simp only [hA, hB]
                rw [if_pos (by omega), if_neg hns]
                simp [exceptToOption]
        | cons c rest3 => simp [exceptToOption]
  · simp only [hc, if_false]
    cases hH : pyIntParse ⟨pyStrip p⟩ with
    | none => simp [exceptToOption]
    | some h => by_cases hb : 0 ≤ h ∧ h ≤ 23 <;> simp [hb, exceptToOption]

/-- The accumulation loop succeeds iff every token does. -/
lemma parseHourLoop_ok (ps : List (List Char)) :
    ∀ acc, exceptOk (parseHourLoop ps acc) = true ↔
      ∀ p ∈ ps, exceptOk (parseToken p) = true := by
  induction ps with
  | nil => intro acc; simp [parseHourLoop, exceptOk]
  | cons p ps ih =>
    intro acc
    simp only [parseHourLoop]
    cases hp : parseToken p with
    | error e =>
      simp only [exceptOk]
      constructor
      · intro h; exact absurd h (by simp)
      · intro h
        have := h p (by simp)
        rw [hp] at this
        simp [exceptOk] at this
    | ok hs =>
      rw [ih (acc ∪ hs)]
      constructor
      · intro h q hq
        rcases List.mem_cons.mp hq with hq | hq
        · subst hq; simp [hp, exceptOk]
        · exact h q hq
      · intro h q hq
        exact h q (List.mem_cons_of_mem _ hq)

/-- On success the result is the union of the accumulator and the per-token
hour sets. -/
lemma parseHourLoop_mem (ps : List (List Char)) :
    ∀ acc H, parseHourLoop ps acc = .ok H →
      ∀ h, h ∈ H ↔ h ∈ acc ∨ ∃ p ∈ ps, ∃ S, parseToken p = .ok S ∧ h ∈ S := by
  induction ps with
  | nil =>
    intro acc H hH h
    simp only [parseHourLoop] at hH
    cases hH
    simp
  | cons p ps ih =>
    intro acc H hH h
    simp only [parseHourLoop] at hH
    cases hp : parseToken p with
    | error e => rw [hp] at hH; cases hH
    | ok hs =>
      rw [hp] at hH
      rw [ih (acc ∪ hs) H hH h]
      constructor
      · rintro (hmem | ⟨q, hq, S, hS, hhS⟩)
        · rcases Finset.mem_union.mp hmem with hmem | hmem
          · exact Or.inl hmem
          · exact Or.inr ⟨p, by simp, hs, hp, hmem⟩
        · exact Or.inr ⟨q, List.mem_cons_of_mem _ hq, S, hS, hhS⟩
      · rintro (hmem | ⟨q, hq, S, hS, hhS⟩)
        · exact Or.inl (Finset.mem_union_left _ hmem)
        · rcases List.mem_cons.mp hq with hq | hq
          · subst hq
            rw [hp] at hS
            cases hS
            exact Or.inl (Finset.mem_union_right _ hhS)
          · exact Or.inr ⟨q, hq, S, hS, hhS⟩

/-- **C8.** The hour-set parser maps every well-formed input string
(comma-separated single integers or low-high ranges, all within `[0,23]`) to
the set of all hours covered — e.g. `"1-3,5"` to `{1,2,3,5}` — and fails with
a validation error exactly when some parsed integer lies outside `[0,23]`,
some range has start greater than end, or some token is not parseable as an
integer or range.  (The parser is a pure function of its input by
construction of the embedding, matching the claim's "no side effects".)
Stated as: the three concrete behaviours; per-token agreement with the
claim-side reading `tokenSetSpec`; success exactly when every token is
well-formed; and, on success, membership is exactly coverage by some token. -/
theorem parse_hour_ranges_spec :
    (exceptToOption (parse_hour_ranges "1-3,5") = some ({1, 2, 3, 5} : Finset ℕ) ∧
      exceptOk (parse_hour_ranges "25") = false ∧
      exceptOk (parse_hour_ranges "5-2") = false) ∧
    (∀ p, exceptToOption (parseToken p) = tokenSetSpec p) ∧
    (∀ s, exceptOk (parse_hour_ranges s) = true ↔
      ∀ p ∈ hourParts s, (tokenSetSpec p).isSome = true) ∧
    (∀ s H, parse_hour_ranges s = .ok H →
      ∀ h, h ∈ H ↔ ∃ p ∈ hourParts s, ∃ S, tokenSetSpec p = some S ∧ h ∈ S) := by
  refine ⟨⟨by decide, by decide, by decide⟩, parseToken_toOption, ?_, ?_⟩
  · intro s
    rw [parse_hour_ranges, parseHourLoop_ok]
    constructor
    · intro h p hp
      rw [← parseToken_toOption p, ← exceptOk_eq_isSome]
      exact h p hp
    · intro h p hp
      rw [exceptOk_eq_isSome, parseToken_toOption p]
      exact h p hp
  · intro s H hH h
    rw [parse_hour_ranges] at hH
    rw [parseHourLoop_mem (hourParts s) ∅ H hH h]
    simp only [Finset.not_mem_empty, false_or]
    constructor
    · rintro ⟨p, hp, S, hS, hhS⟩
      refine ⟨p, hp, S, ?_, hhS⟩
      rw [← parseToken_toOption p, hS]
      rfl
    · rintro ⟨p, hp, S, hS, hhS⟩
      refine ⟨p, hp, S, ?_, hhS⟩
      rw [← parseToken_toOption p] at hS
      exact (exceptToOption_eq_some _ _).mp hS

/-- Witness for C8: instantiates the success-membership clause on the
concrete input `"1-3,5"` at hour `2`. -/
theorem parse_hour_ranges_spec_witness :
    2 ∈ ({1, 2, 3, 5} : Finset ℕ) ↔
      ∃ p ∈ hourParts "1-3,5", ∃ S, tokenSetSpec p = some S ∧ 2 ∈ S :=
  parse_hour_ranges_spec.2.2.2 "1-3,5" {1, 2, 3, 5}
    ((exceptToOption_eq_some _ _).mp (by decide)) 2

/-! ## Lemmas: schedule check -/

lemma hoursBetween_three_ago (now : ℤ) : hoursBetween (now - 3 * 3600) now = 3 := by
  unfold hoursBetween truncHour
  omega

/-- **C6.** Under the EVERY interval type, if `fetch_interval` parses as an
integer `N` then the schedule check returns `true` when `last_fetch` is
unset, and otherwise returns `true` iff the number of whole hours between
`last_fetch` and the current time — both first truncated down to the start of
their hour, which is what `hoursBetween` computes — is at least `N`; in
particular with `last_fetch` three hours ago, `N = 2` gives due and `N = 4`
gives not due. -/
theorem every_interval_schedule (s : Service) (current_hour : ℕ) (now : ℤ) (n : ℤ)
    (ht : s.interval_type = .EVERY) (hp : pyIntParse s.fetch_interval = some n) :
    (s.last_fetch = none → _should_fetch_at_hour s current_hour now = true) ∧
    (∀ lf, s.last_fetch = some lf →
      (_should_fetch_at_hour s current_hour now = true ↔ n ≤ hoursBetween lf now)) ∧
    (∀ lf, s.last_fetch = some lf → lf = now - 3 * 3600 →
      (n = 2 → _should_fetch_at_hour s current_hour now = true) ∧
      (n = 4 → _should_fetch_at_hour s current_hour now = false)) := by
  unfold _should_fetch_at_hour shouldFetchBody
  rw [ht, hp]
  refine ⟨?_, ?_, ?_⟩
  · intro hlf; rw [hlf]
  · intro lf hlf
    rw [hlf]
    simp [ge_iff_le]
  · intro lf hlf hlf3
    rw [hlf, hlf3]
    simp only [ge_iff_le, hoursBetween_three_ago]
    constructor
    · intro hn; subst hn; decide
    · intro hn; subst hn; decide

/-- Witness for C6: a service with interval `"2"` whose last fetch was three
hours ago is due. -/
theorem every_interval_schedule_witness :
    _should_fetch_at_hour ⟨.EVERY, "2", some (0 - 3 * 3600)⟩ 0 0 = true :=
  ((every_interval_schedule ⟨.EVERY, "2", some (0 - 3 * 3600)⟩ 0 0 2 rfl
    (by decide)).2.2 (0 - 3 * 3600) rfl rfl).1 rfl

/-- **C7.** The schedule check never propagates a parse failure to its
caller (it is a total `Bool`-valued function by construction; the outer
`except ValueError` is the final `match` of `_should_fetch_at_hour`): for a
malformed `fetch_interval` — any string the hour-set parser rejects under the
ON or NOT_ON types (unparseable token, out-of-bounds hour, inverted range),
or a string `int(...)` rejects under EVERY — the check returns `false`. -/
theorem schedule_check_parse_errors (s : Service) (current_hour : ℕ) (now : ℤ) :
    ((s.interval_type = .ON ∨ s.interval_type = .NOT_ON) →
      ∀ e, parse_hour_ranges s.fetch_interval = .error e →
        _should_fetch_at_hour s current_hour now = false) ∧
    (s.interval_type = .EVERY → pyIntParse s.fetch_interval = none →
      _should_fetch_at_hour s current_hour now = false) := by
  constructor
  · rintro (ht | ht) e he <;>
      · unfold _should_fetch_at_hour shouldFetchBody
        rw [ht, he]
  · intro ht hp
    unfold _should_fetch_at_hour shouldFetchBody
    rw [ht, hp]

/-- Witness for C7: a non-integer interval under EVERY, and an out-of-bounds
hour under ON, both yield not-due. -/
theorem schedule_check_parse_errors_witness :
    _should_fetch_at_hour ⟨.EVERY, "abc", none⟩ 0 0 = false :=
  (schedule_check_parse_errors ⟨.EVERY, "abc", none⟩ 0 0).2 rfl (by decide)

/-! ## Lemmas: list update and row counting -/

lemma updateAt_length {α : Type} (l : List α) :
    ∀ (i : ℕ) (f : α → α), (updateAt l i f).length = l.length := by
  induction l with
  | nil => intro i f; rfl
  | cons x xs ih =>
    intro i f
    cases i with
    | zero => rfl
    | succ n => simp [updateAt, ih]

lemma updateAt_get_eq {α : Type} (l : List α) :
    ∀ (i : ℕ) (f : α → α) (x : α), l[i]? = some x → (updateAt l i f)[i]? = some (f x) := by
  induction l with
  | nil => intro i f x h; simp at h
  | cons y ys ih =>
    intro i f x h
    cases i with
    | zero =>
      simp only [List.getElem?_cons_zero, Option.some.injEq] at h
      subst h
      simp [updateAt]
    | succ n =>
      simp only [List.getElem?_cons_succ] at h
      simp only [updateAt, List.getElem?_cons_succ]
      exact ih n f x h

lemma updateAt_get_ne {α : Type} (l : List α) :
    ∀ (i j : ℕ) (f : α → α), j ≠ i → (updateAt l i f)[j]? = l[j]? := by
  induction l with
  | nil => intro i j f h; rfl
  | cons y ys ih =>
    intro i j f h
    cases i with
    | zero =>
      cases j with
      | zero => exact absurd rfl h
      | succ m => simp [updateAt]
    | succ n =>
      cases j with
      | zero => simp [updateAt]
      | succ m =>
        simp only [updateAt, List.getElem?_cons_succ]
        exact ih n m f (fun hc => h (by rw [hc]))

lemma countP_updateAt {α : Type} (l : List α) :
    ∀ (i : ℕ) (g : α → α) (p : α → Bool), (∀ x, p (g x) = p x) →
      (updateAt l i g).countP p = l.countP p := by
  induction l with
  | nil => intros; rfl
  | cons x xs ih =>
    intro i g p hg
    cases i with
    | zero => simp [updateAt, List.countP_cons, hg]
    | succ n => simp [updateAt, List.countP_cons, ih n g p hg]

lemma countPair_eq_countP (db : List ExchangeRateRec) (f t : ℕ) :
    countPair db f t = db.countP (fun e => e.from_currency == f && e.to_currency == t) :=
  (List.countP_eq_length_filter _ _).symm

lemma countPair_append (db : List ExchangeRateRec) (e : ExchangeRateRec) (f t : ℕ) :
    countPair (db ++ [e]) f t =
      countPair db f t + (if e.from_currency = f ∧ e.to_currency = t then 1 else 0) := by
  rw [countPair_eq_countP, countPair_eq_countP, List.countP_append]
  congr 1
  by_cases h : e.from_currency = f ∧ e.to_currency = t
  · simp [List.countP_cons, h.1, h.2, h]
  · rcases Decidable.not_and_iff_or_not.mp h with h1 | h1 <;> simp [List.countP_cons, h1, h]

lemma countPair_updateAt (db : List ExchangeRateRec) (i : ℕ)
    (g : ExchangeRateRec → ExchangeRateRec)
    (hg : ∀ x, (g x).from_currency = x.from_currency ∧ (g x).to_currency = x.to_currency)
    (f t : ℕ) : countPair (updateAt db i g) f t = countPair db f t := by
  rw [countPair_eq_countP, countPair_eq_countP]
  exact countP_updateAt db i g _ (fun x => by rw [(hg x).1, (hg x).2])

/-! ## Lemmas: most recent automatic row -/

lemma mostRecentAutoIdxAux_some_ne_none (f t : ℕ) (l : List ExchangeRateRec) :
    ∀ (i j d : ℕ), mostRecentAutoIdxAux f t l i (some (j, d)) ≠ none := by
  induction l with
  | nil => intro i j d h; cases h
  | cons e rest ih =>
    intro i j d
    simp only [mostRecentAutoIdxAux]
    by_cases hm : matchesAuto f t e = true
    · rw [if_pos hm]
      by_cases hd : e.date > d
      · simp only [hd, if_true]; exact ih (i + 1) i e.date
      · simp only [hd, if_false]; exact ih (i + 1) j d
    · rw [if_neg hm]; exact ih (i + 1) j d

lemma mostRecentAutoIdxAux_none_iff (f t : ℕ) (l : List ExchangeRateRec) :
    ∀ (i : ℕ), mostRecentAutoIdxAux f t l i none = none ↔
      ∀ e ∈ l, matchesAuto f t e = false := by
  induction l with
  | nil => intro i; simp [mostRecentAutoIdxAux]
  | cons e rest ih =>
    intro i
    simp only [mostRecentAutoIdxAux]
    by_cases hm : matchesAuto f t e = true
    · rw [if_pos hm]
      constructor
      · intro h; exact absurd h (mostRecentAutoIdxAux_some_ne_none f t rest (i + 1) i e.date)
      · intro h; rw [h e (by simp)] at hm; cases hm
    · rw [if_neg hm]
      rw [ih (i + 1)]
      constructor
      · intro h e' he'
        rcases List.mem_cons.mp he' with he' | he'
        · subst he'; exact Bool.not_eq_true _ ▸ Bool.of_not_eq_true hm
        · exact h e' he'
      · intro h e' he'
        exact h e' (List.mem_cons_of_mem _ he')

/-- Full characterisation of the scan: a `some` result is either the
accumulator or a matching row of the suffix, and its date dominates the
accumulator and every matching row of the suffix. -/
lemma mostRecentAutoIdxAux_spec (f t : ℕ) (l : List ExchangeRateRec) :
    ∀ (i : ℕ) (best : Option (ℕ × ℕ)) (res : ℕ × ℕ),
      mostRecentAutoIdxAux f t l i best = some res →
      (best = some res ∨
        ∃ (k : ℕ) (e' : ExchangeRateRec),
          l[k]? = some e' ∧ res = (i + k, e'.date) ∧ matchesAuto f t e' = true) ∧
      (∀ (k : ℕ) (e' : ExchangeRateRec),
        l[k]? = some e' → matchesAuto f t e' = true → e'.date ≤ res.2) ∧
      (∀ j d, best = some (j, d) → d ≤ res.2) := by
  induction l with
  | nil =>
    intro i best res h
    simp only [mostRecentAutoIdxAux] at h
    refine ⟨Or.inl h, ?_, ?_⟩
    · intro k e' hk; simp at hk
    · intro j d hbd; rw [hbd] at h; cases h; rfl
  | cons e rest ih =>
    intro i best res h
    simp only [mostRecentAutoIdxAux] at h
    by_cases hm : matchesAuto f t e = true
    · rw [if_pos hm] at h
      cases best with
      | none =>
        obtain ⟨h1, h2, h3⟩ := ih (i + 1) (some (i, e.date)) res h
        refine ⟨?_, ?_, ?_⟩
        · rcases h1 with h1 | ⟨k, e', hk, hres, hm'⟩
          · exact Or.inr ⟨0, e, by simp, by cases h1; simp, hm⟩
          · exact Or.inr ⟨k + 1, e', by simpa using hk, by rw [hres]; congr 1; omega, hm'⟩
        · intro k e' hk hm'
          cases k with
          | zero =>
            simp only [List.getElem?_cons_zero, Option.some.injEq] at hk
            subst hk
            exact h3 i e.date rfl
          | succ m =>
            simp only [List.getElem?_cons_succ] at hk
            exact h2 m e' hk hm'
        · intro j d hbd; cases hbd
      | some jd =>
        obtain ⟨j, d⟩ := jd
        by_cases hd : e.date > d
        · simp only [hd, if_true] at h
          obtain ⟨h1, h2, h3⟩ := ih (i + 1) (some (i, e.date)) res h
          have hdom : e.date ≤ res.2 := h3 i e.date rfl
          refine ⟨?_, ?_, ?_⟩
          · rcases h1 with h1 | ⟨k, e', hk, hres, hm'⟩
            · exact Or.inr ⟨0, e, by simp, by cases h1; simp, hm⟩
            · exact Or.inr ⟨k + 1, e', by simpa using hk, by rw [hres]; congr 1; omega, hm'⟩
          · intro k e' hk hm'
            cases k with
            | zero =>
              simp only [List.getElem?_cons_zero, Option.some.injEq] at hk
              subst hk; exact hdom
            | succ m =>
              simp only [List.getElem?_cons_succ] at hk
              exact h2 m e' hk hm'
          · intro j' d' hbd
            cases hbd
            omega
        · simp only [hd, if_false] at h
          obtain ⟨h1, h2, h3⟩ := ih (i + 1) (some (j, d)) res h
          have hdom : d ≤ res.2 := h3 j d rfl
          refine ⟨?_, ?_, ?_⟩
          · rcases h1 with h1 | ⟨k, e', hk, hres, hm'⟩
            · exact Or.inl h1
            · exact Or.inr ⟨k + 1, e', by simpa using hk, by rw [hres]; congr 1; omega, hm'⟩
          · intro k e' hk hm'
            cases k with
            | zero =>
              simp only [List.getElem?_cons_zero, Option.some.injEq] at hk
              subst hk; omega
            | succ m =>
              simp only [List.getElem?_cons_succ] at hk
              exact h2 m e' hk hm'
          · intro j' d' hbd; cases hbd; exact hdom
    · rw [if_neg hm] at h
      obtain ⟨h1, h2, h3⟩ := ih (i + 1) best res h
      refine ⟨?_, ?_, ?_⟩
      · rcases h1 with h1 | ⟨k, e', hk, hres, hm'⟩
        · exact Or.inl h1
        · exact Or.inr ⟨k + 1, e', by simpa using hk, by rw [hres]; congr 1; omega, hm'⟩
      · intro k e' hk hm'
        cases k with
        | zero =>
          simp only [List.getElem?_cons_zero, Option.some.injEq] at hk
          subst hk
          exact absurd hm' hm
        | succ m =>
          simp only [List.getElem?_cons_succ] at hk
          exact h2 m e' hk hm'
      · exact h3

/-- A `some` result of `mostRecentAutoIdx` points at a matching automatic
row whose date dominates every matching row. -/
lemma mostRecentAutoIdx_spec (db : List ExchangeRateRec) (f t i : ℕ)
    (h : mostRecentAutoIdx db f t = some i) :
    ∃ e, db[i]? = some e ∧ matchesAuto f t e = true ∧
      ∀ (j : ℕ) (e' : ExchangeRateRec),
        db[j]? = some e' → matchesAuto f t e' = true → e'.date ≤ e.date := by
  unfold mostRecentAutoIdx at h
  cases hres : mostRecentAutoIdxAux f t db 0 none with
  | none => rw [hres] at h; cases h
  | some res =>
    rw [hres] at h
    simp only [Option.map_some', Option.some.injEq] at h
    obtain ⟨h1, h2, _⟩ := mostRecentAutoIdxAux_spec f t db 0 none res hres
    rcases h1 with h1 | ⟨k, e', hk, hres2, hm'⟩
    · cases h1
    · refine ⟨e', ?_, hm', ?_⟩
      · rw [← h, hres2]; simpa using hk
      · intro j e'' hj hm''
        have := h2 j e'' hj hm''
        rw [hres2] at this
        simpa using this

/-- `mostRecentAutoIdx` is `none` exactly when no automatic row matches. -/
lemma mostRecentAutoIdx_none_iff (db : List ExchangeRateRec) (f t : ℕ) :
    mostRecentAutoIdx db f t = none ↔ ∀ e ∈ db, matchesAuto f t e = false := by
  unfold mostRecentAutoIdx
  rw [Option.map_eq_none']
  exact mostRecentAutoIdxAux_none_iff f t db 0

/-! ## Theorems: the upsert loop -/

lemma matchesAuto_iff (f t : ℕ) (e : ExchangeRateRec) :
    matchesAuto f t e = true ↔
      e.automatic = true ∧ e.from_currency = f ∧ e.to_currency = t := by
  unfold matchesAuto
  simp [Bool.and_eq_true, and_assoc]

/-- A non-skipped tuple upserts against the resolved pair and nothing else
touches the table. -/
lemma processTuple_db (rates_inverted singleton : Bool) (now : ℕ) (st : FetchState)
    (fc tc : ℕ) (r : ℚ) (h : (fc, tc) ∉ st.processed) :
    (processTuple rates_inverted singleton now st (fc, tc, r)).db =
      upsert singleton now st.db (if rates_inverted then tc else fc)
        (if rates_inverted then fc else tc) r := by
  unfold processTuple
  cases rates_inverted <;> simp [h]

/-- **C1** fails on the code (code bug): in one fetch batch of an inverted
provider, the skip check compares the raw `(from, to)` key
(fetcher.py line 195) against a set to which the inverted branch adds the
*swapped* key (line 228), so a later tuple for the same raw pair is processed
again.  Here the same tuple `(1, 2, 3/2)` yielded twice by a
`rates_inverted` provider with `singleton = false` creates two identical
rows, where the claim requires the second occurrence to cause no create; the
dedup works as claimed only for the non-inverted branch (second conjunct). -/
theorem duplicate_inverted_tuple_reprocessed :
    (fetchBatch true false 0 [] [(1, 2, (3:ℚ)/2), (1, 2, (3:ℚ)/2)]).db =
      [⟨2, 1, (3:ℚ)/2, 0, true⟩, ⟨2, 1, (3:ℚ)/2, 0, true⟩] ∧
    (fetchBatch false false 0 [] [(1, 2, (3:ℚ)/2), (1, 2, (3:ℚ)/2)]).db =
      [⟨1, 2, (3:ℚ)/2, 0, true⟩] :=
  ⟨by with_unfolding_all rfl, by with_unfolding_all rfl⟩

/-- **C2.** A processed tuple `(a, b, r)` of a provider with
`rates_inverted = true` stores swapped roles and an unchanged rate: either a
fresh automatic row `(from = b, to = a, rate = r)` is appended, or the most
recent automatic row for the pair `(b, a)` is overwritten with rate `r`. -/
theorem inverted_rates_swap_roles (singleton : Bool) (now : ℕ) (st : FetchState)
    (a b : ℕ) (r : ℚ) (h : (a, b) ∉ st.processed) :
    (processTuple true singleton now st (a, b, r)).db =
        st.db ++ [⟨b, a, r, now, true⟩] ∨
    ∃ (i : ℕ) (e : ExchangeRateRec), mostRecentAutoIdx st.db b a = some i ∧
      st.db[i]? = some e ∧ e.automatic = true ∧
      e.from_currency = b ∧ e.to_currency = a ∧
      (processTuple true singleton now st (a, b, r)).db =
        updateAt st.db i (fun x => { x with rate := r, date := now }) := by
  rw [processTuple_db true singleton now st a b r h]
  simp only [if_true]
  unfold upsert
  cases singleton with
  | false => left; rfl
  | true =>
    simp only [if_true]
    cases hm : mostRecentAutoIdx st.db b a with
    | none => left; rfl
    | some i =>
      right
      obtain ⟨e, he, hme, _⟩ := mostRecentAutoIdx_spec st.db b a i hm
      obtain ⟨hauto, hfrom, hto⟩ := (matchesAuto_iff b a e).mp hme
      exact ⟨i, e, rfl, he, hauto, hfrom, hto, rfl⟩

/-- **C3.** For a processed tuple with resolved pair `(rf, rt)`: when the
service's `singleton` flag is set and an automatic row for the pair exists
(equivalently, the most-recent lookup succeeds — first conjunct), the
most recent such row's rate and date are overwritten in place, the table
length and the row count for the pair are unchanged, and every other row is
untouched; when `singleton` is unset, exactly one new row is appended and
the count for the pair grows by one. -/
theorem singleton_upsert_semantics (rates_inverted singleton : Bool) (now : ℕ)
    (st : FetchState) (fc tc rf rt : ℕ) (r : ℚ)
    (h : (fc, tc) ∉ st.processed)
    (hrf : rf = if rates_inverted then tc else fc)
    (hrt : rt = if rates_inverted then fc else tc) :
    ((∃ e ∈ st.db, matchesAuto rf rt e = true) ↔
        (mostRecentAutoIdx st.db rf rt).isSome = true) ∧
    (singleton = true → ∀ i : ℕ, mostRecentAutoIdx st.db rf rt = some i →
      (processTuple rates_inverted singleton now st (fc, tc, r)).db.length =
          st.db.length ∧
      countPair (processTuple rates_inverted singleton now st (fc, tc, r)).db rf rt =
        countPair st.db rf rt ∧
      (∃ e : ExchangeRateRec, st.db[i]? = some e ∧ matchesAuto rf rt e = true ∧
        (∀ (j : ℕ) (e' : ExchangeRateRec), st.db[j]? = some e' →
          matchesAuto rf rt e' = true → e'.date ≤ e.date) ∧
        (processTuple rates_inverted singleton now st (fc, tc, r)).db[i]? =
          some { e with rate := r, date := now }) ∧
      (∀ j : ℕ, j ≠ i →
        (processTuple rates_inverted singleton now st (fc, tc, r)).db[j]? =
          st.db[j]?)) ∧
    (singleton = false →
      (processTuple rates_inverted singleton now st (fc, tc, r)).db =
        st.db ++ [⟨rf, rt, r, now, true⟩] ∧
      countPair (processTuple rates_inverted singleton now st (fc, tc, r)).db rf rt =
        countPair st.db rf rt + 1) := by
  have hdb := processTuple_db rates_inverted singleton now st fc tc r h
  rw [← hrf, ← hrt] at hdb
  refine ⟨?_, ?_, ?_⟩
  · constructor
    · rintro ⟨e, he, hme⟩
      rw [Option.isSome_iff_ne_none]
      intro hnone
      rw [mostRecentAutoIdx_none_iff] at hnone
      rw [hnone e he] at hme
      cases hme
    · intro hsome
      by_contra hno
      push_neg at hno
      have hn : mostRecentAutoIdx st.db rf rt = none := by
        rw [mostRecentAutoIdx_none_iff]
        intro e he
        exact Bool.eq_false_iff.mpr (fun hc => hno e he hc)
      rw [hn] at hsome
      cases hsome
  · intro hsgl i hi
    subst hsgl
    have hdb' : (processTuple rates_inverted true now st (fc, tc, r)).db =
        updateAt st.db i (fun x => { x with rate := r, date := now }) := by
      rw [hdb]
      unfold upsert
      simp only [if_true]
      rw [hi]
    obtain ⟨e, he, hme, hdom⟩ := mostRecentAutoIdx_spec st.db rf rt i hi
    refine ⟨?_, ?_, ⟨e, he, hme, hdom, ?_⟩, ?_⟩
    · rw [hdb']; exact updateAt_length st.db i _
    · rw [hdb']
      exact countPair_updateAt st.db i
        (fun x => { x with rate := r, date := now }) (fun x => ⟨rfl, rfl⟩) rf rt
    · rw [hdb']; exact updateAt_get_eq st.db i _ e he
    · intro j hj; rw [hdb']; exact updateAt_get_ne st.db i j _ hj
  · intro hsgl
    subst hsgl
    have hdb' : (processTuple rates_inverted false now st (fc, tc, r)).db =
        st.db ++ [⟨rf, rt, r, now, true⟩] := by
      rw [hdb]; rfl
    refine ⟨hdb', ?_⟩
    rw [hdb', countPair_append]
    simp

/-- Witness for C2: a single inverted tuple on an empty table appends the
swapped row. -/
theorem inverted_rates_swap_roles_witness :
    (processTuple true false 7 ⟨[], ∅⟩ (1, 2, (5:ℚ))).db = [⟨2, 1, 5, 7, true⟩] ∨
    ∃ (i : ℕ) (e : ExchangeRateRec), mostRecentAutoIdx [] 2 1 = some i ∧
      ([] : List ExchangeRateRec)[i]? = some e ∧ e.automatic = true ∧
      e.from_currency = 2 ∧ e.to_currency = 1 ∧
      (processTuple true false 7 ⟨[], ∅⟩ (1, 2, (5:ℚ))).db =
        updateAt [] i (fun x => { x with rate := (5:ℚ), date := 7 }) :=
  inverted_rates_swap_roles false 7 ⟨[], ∅⟩ 1 2 5 (by simp)

/-- Witness for C3: instantiates the non-singleton clause on an empty table
(appending one row for the resolved pair) with an inverted provider. -/
theorem singleton_upsert_semantics_witness :
    (processTuple true false 3 ⟨[], ∅⟩ (1, 2, (5:ℚ))).db = [⟨2, 1, 5, 3, true⟩] ∧
    countPair (processTuple true false 3 ⟨[], ∅⟩ (1, 2, (5:ℚ))).db 2 1 =
      countPair [] 2 1 + 1 :=
  (singleton_upsert_semantics true false 3 ⟨[], ∅⟩ 1 2 2 1 5
    (by simp) rfl rfl).2.2 rfl

/-! ## Theorems: graph construction -/

lemma lookupAdj_updAssoc (v : ℕ) (w : ℚ) :
    ∀ (l : AdjList) (x : ℕ),
      lookupAdj (updAssoc l v w) x = if x = v then some w else lookupAdj l x := by
  intro l
  induction l with
  | nil =>
    intro x
    by_cases hx : x = v
    · subst hx; simp [updAssoc, lookupAdj]
    · have hx' : ¬v = x := fun h => hx h.symm
      simp [updAssoc, lookupAdj, hx, hx']
  | cons kw rest ih =>
    intro x
    obtain ⟨k, w'⟩ := kw
    by_cases hk : k = v
    · subst hk
      by_cases hx : x = k
      · subst hx; simp [updAssoc, lookupAdj]
      · have hx' : ¬k = x := fun h => hx h.symm
        simp [updAssoc, lookupAdj, hx, hx']
    · simp only [updAssoc, if_neg hk]
      by_cases hx : k = x
      · subst hx
        simp only [lookupAdj, eq_self_iff_true, if_true, if_neg hk]
      · simp [lookupAdj, hx, ih x]

lemma lookupNode_setEdge (a b : ℕ) (w : ℚ) :
    ∀ (g : CurrencyGraph) (u : ℕ),
      lookupNode (setEdge g a b w) u =
        if u = a then some (updAssoc (adjOf g a) b w) else lookupNode g u := by
  intro g
  induction g with
  | nil =>
    intro u
    by_cases hu : u = a
    · subst hu; simp [setEdge, lookupNode, adjOf, updAssoc]
    · have hu' : ¬a = u := fun h => hu h.symm
      simp [setEdge, lookupNode, adjOf, hu, hu']
  | cons ka rest ih =>
    intro u
    obtain ⟨k, adj⟩ := ka
    by_cases hk : k = a
    · subst hk
      by_cases hu : u = k
      · subst hu; simp [setEdge, lookupNode, adjOf]
      · have hu' : ¬k = u := fun h => hu h.symm
        simp [setEdge, lookupNode, adjOf, hu, hu']
    · simp only [setEdge, if_neg hk]
      by_cases hu : k = u
      · subst hu
        have h2 : ¬k = a := hk
        have h2' : ¬a = k := fun h => h2 h.symm
        simp [lookupNode, adjOf, h2, h2']
      · have hadj : adjOf ((k, adj) :: rest) a = adjOf rest a := by
          simp [adjOf, lookupNode, hk]
        simp only [lookupNode, if_neg hu, ih u, hadj]

lemma edgeW_setEdge (g : CurrencyGraph) (a b : ℕ) (w : ℚ) (u v : ℕ) :
    edgeW (setEdge g a b w) u v =
      if u = a ∧ v = b then some w else edgeW g u v := by
  unfold edgeW adjOf
  rw [lookupNode_setEdge a b w g u]
  by_cases hu : u = a
  · rw [if_pos hu]
    simp only [Option.getD_some]
    rw [lookupAdj_updAssoc b w (adjOf g a) v]
    by_cases hv : v = b
    · rw [if_pos hv, if_pos ⟨hu, hv⟩]
    · rw [if_neg hv, if_neg (fun hc => hv hc.2)]
      unfold adjOf
      rw [hu]
  · rw [if_neg hu, if_neg (fun hc => hu hc.1)]

/-- Modelled from the claim's words (C5): the edge that one rate record
`(A, B, r, date)` contributes to the ordered pair `(u, v)`: weight `r` when
`(u, v) = (A, B)` and weight `1/r` when `(u, v) = (B, A)`.  For a degenerate
self-rate (`A = B`) the reciprocal write is performed second in the source,
so it is the record's contribution. -/
def recordEdge (u v : ℕ) (e : ExchangeRateRec) : Option ℚ :=
  if u = e.to_currency ∧ v = e.from_currency then some (1 / e.rate)
  else if u = e.from_currency ∧ v = e.to_currency then some e.rate
  else none

/-- The contribution of the last record in `rs` that writes the ordered pair
`(u, v)`, if any. -/
def lastWrite (u v : ℕ) (rs : List ExchangeRateRec) : Option ℚ :=
  (rs.filterMap (recordEdge u v)).getLast?

/-- First-some choice. -/
def orOpt (a b : Option ℚ) : Option ℚ :=
  match a with
  | some w => some w
  | none => b

lemma lastWrite_cons (u v : ℕ) (e : ExchangeRateRec)
    (rest : List ExchangeRateRec) (b : Option ℚ) :
    orOpt (lastWrite u v rest) (orOpt (recordEdge u v e) b) =
      orOpt (lastWrite u v (e :: rest)) b := by
  unfold lastWrite
  rw [List.filterMap_cons]
  cases hre : recordEdge u v e with
  | none => simp [orOpt]
  | some w =>
    simp only []
    cases hfm : rest.filterMap (recordEdge u v) with
    | nil => simp [orOpt]
    | cons x xs =>
      rw [List.getLast?_cons_cons]
      cases hgl : (x :: xs).getLast? with
      | none => simp at hgl
      | some y => simp [orOpt]

lemma addRateEdges_lookup (g : CurrencyGraph) (e : ExchangeRateRec)
    (g' : CurrencyGraph) (h : addRateEdges g e = .ok g') (u v : ℕ) :
    edgeW g' u v = orOpt (recordEdge u v e) (edgeW g u v) := by
  unfold addRateEdges at h
  by_cases hz : e.rate = 0
  · rw [if_pos hz] at h; cases h
  · rw [if_neg hz] at h
    cases h
    rw [edgeW_setEdge, edgeW_setEdge]
    unfold recordEdge orOpt
    by_cases h1 : u = e.to_currency ∧ v = e.from_currency
    · rw [if_pos h1, if_pos h1]
    · rw [if_neg h1, if_neg h1]
      by_cases h2 : u = e.from_currency ∧ v = e.to_currency
      · rw [if_pos h2, if_pos h2]
      · rw [if_neg h2, if_neg h2]

lemma buildGraphLoop_lookup (rs : List ExchangeRateRec) :
    ∀ (g G : CurrencyGraph), buildGraphLoop g rs = .ok G → ∀ u v,
      edgeW G u v = orOpt (lastWrite u v rs) (edgeW g u v) := by
  induction rs with
  | nil =>
    intro g G h u v
    simp only [buildGraphLoop] at h
    cases h
    rfl
  | cons e rest ih =>
    intro g G h u v
    simp only [buildGraphLoop] at h
    cases ha : addRateEdges g e with
    | error msg => rw [ha] at h; cases h
    | ok g' =>
      rw [ha] at h
      rw [ih g' G h u v, addRateEdges_lookup g e g' ha u v]
      exact lastWrite_cons u v e rest (edgeW g u v)

/-- **C5.** Graph construction adds, for every record `(A, B, r, date)`, the
edge `A→B` with weight `r` and the edge `B→A` with weight `1/r`; when several
records write the same ordered pair, the finished graph holds the weight from
the last record processed.  Stated as: every edge lookup in the finished
graph equals the last matching record's contribution (`none` when no record
touches the pair). -/
theorem build_graph_last_write_wins (rs : List ExchangeRateRec)
    (G : CurrencyGraph) (h : _build_currency_graph rs = .ok G) (u v : ℕ) :
    edgeW G u v = lastWrite u v rs := by
  rw [buildGraphLoop_lookup rs [] G h u v]
  cases lastWrite u v rs <;> rfl

/-- Witness for C5: of two records for the pair `(1, 2)` (rates 2 then 4),
the later one determines the forward edge; the lookup agrees with
`lastWrite`. -/
theorem build_graph_last_write_wins_witness :
    edgeW [(1, [(2, (4:ℚ))]), (2, [(1, (1:ℚ)/4)])] 1 2 =
      lastWrite 1 2 [⟨1, 2, 2, 0, true⟩, ⟨1, 2, 4, 0, true⟩] :=
  build_graph_last_write_wins [⟨1, 2, 2, 0, true⟩, ⟨1, 2, 4, 0, true⟩]
    [(1, [(2, (4:ℚ))]), (2, [(1, (1:ℚ)/4)])] (by with_unfolding_all rfl) 1 2

lemma buildGraphLoop_ok_of_nonzero (rs : List ExchangeRateRec) :
    ∀ g : CurrencyGraph, (∀ e ∈ rs, e.rate ≠ 0) →
      exceptOk (buildGraphLoop g rs) = true := by
  induction rs with
  | nil => intro g h; rfl
  | cons e rest ih =>
    intro g h
    simp only [buildGraphLoop, addRateEdges]
    rw [if_neg (h e (by simp))]
    exact ih _ (fun e' he' => h e' (List.mem_cons_of_mem _ he'))

/-- **C10.** Graph construction is total exactly on inputs with no zero
rate: it succeeds whenever every record's rate is nonzero, and on a record
with rate `0` the reciprocal-edge computation `Decimal("1") / rate.rate`
raises a division error. -/
theorem build_graph_total_iff_nonzero :
    (∀ rs : List ExchangeRateRec, (∀ e ∈ rs, e.rate ≠ 0) →
      exceptOk (_build_currency_graph rs) = true) ∧
    exceptOk (_build_currency_graph [⟨1, 2, 0, 0, true⟩]) = false := by
  constructor
  · intro rs h
    exact buildGraphLoop_ok_of_nonzero rs [] h
  · with_unfolding_all rfl

/-- Witness for C10: a one-record table with nonzero rate builds without
error. -/
theorem build_graph_total_iff_nonzero_witness :
    exceptOk (_build_currency_graph [⟨1, 2, (2:ℚ), 0, true⟩]) = true :=
  build_graph_total_iff_nonzero.1 [⟨1, 2, (2:ℚ), 0, true⟩]
    (by intro e he; simp at he; subst he; norm_num)

/-! ## Lemmas: BFS paths -/

lemma lookupAdj_mem (l : AdjList) :
    ∀ (v : ℕ) (w : ℚ), lookupAdj l v = some w → (v, w) ∈ l := by
  induction l with
  | nil => intro v w h; cases h
  | cons kw rest ih =>
    intro v w h
    obtain ⟨k, w'⟩ := kw
    simp only [lookupAdj] at h
    by_cases hk : k = v
    · rw [if_pos hk] at h
      cases h
      subst hk
      simp
    · rw [if_neg hk] at h
      exact List.mem_cons_of_mem _ (ih v w h)

lemma chainRate_cases (g : CurrencyGraph) (u x : ℕ) (xs : List ℕ) (r : ℚ)
    (h : chainRate g u (x :: xs) = some r) :
    ∃ w1 r1, edgeW g u x = some w1 ∧ chainRate g x xs = some r1 ∧ r = w1 * r1 := by
  simp only [chainRate] at h
  cases he : edgeW g u x with
  | none => rw [he] at h; cases h
  | some w1 =>
    cases hc : chainRate g x xs with
    | none => rw [he, hc] at h; cases h
    | some r1 =>
      rw [he, hc] at h
      cases h
      exact ⟨w1, r1, rfl, rfl, rfl⟩

lemma chainRate_append (g : CurrencyGraph) :
    ∀ (t : List ℕ) (u : ℕ) (r : ℚ) (v w : ℕ) (wt : ℚ),
      chainRate g u t = some r → (u :: t).getLast? = some v →
      edgeW g v w = some wt → chainRate g u (t ++ [w]) = some (r * wt) := by
  intro t
  induction t with
  | nil =>
    intro u r v w wt hc hl he
    simp only [chainRate, Option.some.injEq] at hc
    simp only [List.getLast?_singleton, Option.some.injEq] at hl
    subst hl
    simp only [List.nil_append, chainRate, he]
    rw [← hc]
    congr 1
    ring
  | cons x xs ih =>
    intro u r v w wt hc hl he
    obtain ⟨w1, r1, he1, hc1, hr⟩ := chainRate_cases g u x xs r hc
    rw [List.getLast?_cons_cons] at hl
    have hx := ih x r1 v w wt hc1 hl he
    simp only [List.cons_append, chainRate, he1, List.append_eq, hx]
    rw [hr]
    congr 1
    ring

lemma chainRate_unsnoc (g : CurrencyGraph) :
    ∀ (t : List ℕ) (u v : ℕ) (r : ℚ),
      chainRate g u (t ++ [v]) = some r →
      ∃ r₀ wt last_, chainRate g u t = some r₀ ∧
        (u :: t).getLast? = some last_ ∧ edgeW g last_ v = some wt ∧ r = r₀ * wt := by
  intro t
  induction t with
  | nil =>
    intro u v r h
    simp only [List.nil_append] at h
    obtain ⟨w1, r1, he1, hc1, hr⟩ := chainRate_cases g u v [] r h
    simp only [chainRate, Option.some.injEq] at hc1
    refine ⟨1, w1, u, rfl, by simp, he1, ?_⟩
    rw [hr, ← hc1]
    ring
  | cons x xs ih =>
    intro u v r h
    simp only [List.cons_append] at h
    obtain ⟨w1, r1, he1, hc1, hr⟩ := chainRate_cases g u x (xs ++ [v]) r h
    obtain ⟨r₀, wt, last_, hc0, hl0, he0, hr0⟩ := ih x v r1 hc1
    refine ⟨w1 * r₀, wt, last_, ?_, ?_, he0, ?_⟩
    · simp only [chainRate, he1, hc0]
    · rw [List.getLast?_cons_cons]
      exact hl0
    · rw [hr, hr0]
      ring

lemma validPath_nonempty {g : CurrencyGraph} {s t : ℕ} {p : List ℕ} {r : ℚ}
    (h : ValidPath g s t p r) : p ≠ [] := by
  obtain ⟨h1, _, _⟩ := h
  cases p with
  | nil => cases h1
  | cons x xs => simp

lemma validPath_snoc {g : CurrencyGraph} {s v : ℕ} {p : List ℕ} {r : ℚ}
    (h : ValidPath g s v p r) {w : ℕ} {wt : ℚ} (he : edgeW g v w = some wt) :
    ValidPath g s w (p ++ [w]) (r * wt) := by
  obtain ⟨h1, h2, h3⟩ := h
  cases p with
  | nil => cases h1
  | cons x xs =>
    simp only [List.head?_cons, Option.some.injEq] at h1
    refine ⟨?_, ?_, ?_⟩
    · simp only [List.cons_append, List.head?_cons, Option.some.injEq]
      exact h1
    · exact List.getLast?_concat _
    · simp only [List.cons_append, pathRate] at h3 ⊢
      exact chainRate_append g xs x r v w wt h3 h2 he

lemma validPath_length_one {g : CurrencyGraph} {s v : ℕ} {p : List ℕ} {r : ℚ}
    (h : ValidPath g s v p r) (hl : p.length = 1) : v = s := by
  obtain ⟨h1, h2, _⟩ := h
  cases p with
  | nil => cases h1
  | cons x xs =>
    cases xs with
    | nil =>
      simp only [List.head?_cons, Option.some.injEq] at h1
      simp only [List.getLast?_singleton, Option.some.injEq] at h2
      rw [← h1, ← h2]
    | cons y ys => simp at hl

lemma validPath_unsnoc {g : CurrencyGraph} {s v : ℕ} {q : List ℕ} {rq : ℚ}
    (h : ValidPath g s v q rq) (hl : 2 ≤ q.length) :
    ∃ (q₀ : List ℕ) (u : ℕ) (r₀ wt : ℚ), ValidPath g s u q₀ r₀ ∧
      q = q₀ ++ [v] ∧ edgeW g u v = some wt ∧ q₀.length + 1 = q.length := by
  obtain ⟨h1, h2, h3⟩ := h
  cases hq : q with
  | nil => subst hq; cases h1
  | cons x xs =>
    subst hq
    simp only [List.head?_cons, Option.some.injEq] at h1
    cases hxs : xs.reverse with
    | nil =>
      rw [List.reverse_eq_nil_iff] at hxs
      subst hxs
      simp at hl
    | cons y ys =>
      have hxs2 : xs = ys.reverse ++ [y] := by
        rw [← List.reverse_reverse xs, hxs]
        simp
      subst hxs2
      have hy : y = v := by
        rw [← List.cons_append, List.getLast?_concat] at h2
        exact Option.some.inj h2
      simp only [pathRate] at h3
      obtain ⟨r₀, wt, last_, hc0, hl0, he0, hr0⟩ :=
        chainRate_unsnoc g ys.reverse x y rq h3
      refine ⟨x :: ys.reverse, last_, r₀, wt, ?_, ?_, ?_, by simp⟩
      · refine ⟨?_, hl0, hc0⟩
        simp only [List.head?_cons, Option.some.injEq]
        exact h1
      · rw [← hy, ← List.cons_append]
      · rw [← hy]
        exact he0

/-! ## Lemmas: the neighbour-expansion loop -/

/-- The entries appended by the neighbour loop for the not-yet-visited
neighbours (in adjacency order), and the final visited set. -/
def freshEntries (path : List ℕ) (current_rate : ℚ) (vis : Finset ℕ) :
    AdjList → List BfsEntry × Finset ℕ
  | [] => ([], vis)
  | (n, w) :: rest =>
    if n ∈ vis then freshEntries path current_rate vis rest
    else
      let r := freshEntries path current_rate (insert n vis) rest
      ((n, path ++ [n], current_rate * w) :: r.1, r.2)

lemma foldl_expandStep (path : List ℕ) (rate : ℚ) :
    ∀ (adj : AdjList) (q0 : List BfsEntry) (vis : Finset ℕ),
      adj.foldl (expandStep path rate) (q0, vis) =
        (q0 ++ (freshEntries path rate vis adj).1,
          (freshEntries path rate vis adj).2) := by
  intro adj
  induction adj with
  | nil => intro q0 vis; simp [freshEntries]
  | cons nw rest ih =>
    intro q0 vis
    obtain ⟨n, w⟩ := nw
    simp only [List.foldl_cons, expandStep]
    by_cases hn : n ∈ vis
    · rw [if_pos hn]
      simp only [freshEntries, if_pos hn]
      exact ih q0 vis
    · rw [if_neg hn]
      simp only [freshEntries, if_neg hn]
      rw [ih (q0 ++ [(n, path ++ [n], rate * w)]) (insert n vis)]
      simp

lemma freshEntries_entry_spec (path : List ℕ) (rate : ℚ) :
    ∀ (adj : AdjList) (vis : Finset ℕ) (e : BfsEntry),
      e ∈ (freshEntries path rate vis adj).1 →
      ∃ w, lookupAdj adj e.1 = some w ∧ e = (e.1, path ++ [e.1], rate * w) ∧
        e.1 ∉ vis := by
  intro adj
  induction adj with
  | nil => intro vis e he; simp [freshEntries] at he
  | cons nw rest ih =>
    intro vis e he
    obtain ⟨n, w⟩ := nw
    simp only [freshEntries] at he
    by_cases hn : n ∈ vis
    · rw [if_pos hn] at he
      obtain ⟨w', hw', he', hv'⟩ := ih vis e he
      refine ⟨w', ?_, he', hv'⟩
      have hne : ¬n = e.1 := fun hc => hv' (hc ▸ hn)
      simp only [lookupAdj]
      rw [if_neg hne]
      exact hw'
    · rw [if_neg hn] at he
      simp only [List.mem_cons] at he
      rcases he with he | he
      · subst he
        refine ⟨w, ?_, rfl, hn⟩
        simp [lookupAdj]
      · obtain ⟨w', hw', he', hv'⟩ := ih (insert n vis) e he
        have hne : n ≠ e.1 := by
          intro hc
          exact hv' (hc ▸ Finset.mem_insert_self n vis)
        refine ⟨w', ?_, he', fun hc => hv' (Finset.mem_insert_of_mem hc)⟩
        simp only [lookupAdj]
        rw [if_neg hne]
        exact hw'

lemma freshEntries_vis_iff (path : List ℕ) (rate : ℚ) :
    ∀ (adj : AdjList) (vis : Finset ℕ) (x : ℕ),
      x ∈ (freshEntries path rate vis adj).2 ↔
        x ∈ vis ∨ ∃ e ∈ (freshEntries path rate vis adj).1, e.1 = x := by
  intro adj
  induction adj with
  | nil => intro vis x; simp [freshEntries]
  | cons nw rest ih =>
    intro vis x
    obtain ⟨n, w⟩ := nw
    simp only [freshEntries]
    by_cases hn : n ∈ vis
    · rw [if_pos hn]
      exact ih vis x
    · rw [if_neg hn]
      simp only [List.mem_cons]
      rw [ih (insert n vis) x]
      constructor
      · rintro (hx | ⟨e, he, hex⟩)
        · rcases Finset.mem_insert.mp hx with hx | hx
          · exact Or.inr ⟨(n, path ++ [n], rate * w), Or.inl rfl, hx.symm⟩
          · exact Or.inl hx
        · exact Or.inr ⟨e, Or.inr he, hex⟩
      · rintro (hx | ⟨e, he | he, hex⟩)
        · exact Or.inl (Finset.mem_insert_of_mem hx)
        · subst he
          exact Or.inl (by rw [← hex]; exact Finset.mem_insert_self n vis)
        · exact Or.inr ⟨e, he, hex⟩

lemma freshEntries_vis_subset (path : List ℕ) (rate : ℚ) (adj : AdjList)
    (vis : Finset ℕ) : vis ⊆ (freshEntries path rate vis adj).2 := by
  intro x hx
  rw [freshEntries_vis_iff]
  exact Or.inl hx

lemma freshEntries_adj_vis (path : List ℕ) (rate : ℚ) :
    ∀ (adj : AdjList) (vis : Finset ℕ) (nw : ℕ × ℚ), nw ∈ adj →
      nw.1 ∈ (freshEntries path rate vis adj).2 := by
  intro adj
  induction adj with
  | nil => intro vis nw h; cases h
  | cons nw0 rest ih =>
    intro vis nw h
    obtain ⟨n, w⟩ := nw0
    simp only [freshEntries]
    rcases List.mem_cons.mp h with h | h
    · subst h
      by_cases hn : n ∈ vis
      · rw [if_pos hn]
        exact freshEntries_vis_subset path rate rest vis hn
      · rw [if_neg hn]
        simp only []
        rw [freshEntries_vis_iff]
        exact Or.inl (Finset.mem_insert_self _ _)
    · by_cases hn : n ∈ vis
      · rw [if_pos hn]
        exact ih vis nw h
      · rw [if_neg hn]
        simp only []
        exact ih (insert n vis) nw h

lemma freshEntries_nodes_nodup (path : List ℕ) (rate : ℚ) :
    ∀ (adj : AdjList) (vis : Finset ℕ),
      ((freshEntries path rate vis adj).1.map (fun e => e.1)).Nodup := by
  intro adj
  induction adj with
  | nil => intro vis; simp [freshEntries]
  | cons nw rest ih =>
    intro vis
    obtain ⟨n, w⟩ := nw
    simp only [freshEntries]
    by_cases hn : n ∈ vis
    · rw [if_pos hn]
      exact ih vis
    · rw [if_neg hn]
      simp only [List.map_cons, List.nodup_cons]
      refine ⟨?_, ih (insert n vis)⟩
      intro hc
      rw [List.mem_map] at hc
      obtain ⟨e, he, hex⟩ := hc
      obtain ⟨w', _, _, hv'⟩ := freshEntries_entry_spec path rate rest (insert n vis) e he
      exact hv' (hex ▸ Finset.mem_insert_self n vis)

/-! ## The BFS invariant -/

/-- Loop invariant of the breadth-first search, for source node `s`:
queue entries carry valid chains from `s` with their composed rate and are
visited; queue path lengths are nondecreasing and span at most two
consecutive values; every node reachable by a chain strictly shorter than
the head entry's path is already visited; every entry's path is a shortest
chain to its node; fully-expanded (visited, dequeued) nodes have all their
neighbours visited; and queue nodes are pairwise distinct. -/
structure BfsInv (g : CurrencyGraph) (s : ℕ) (queue : List BfsEntry)
    (vis : Finset ℕ) : Prop where
  src_vis : s ∈ vis
  entries_ok : ∀ e ∈ queue, ValidPath g s e.1 e.2.1 e.2.2 ∧ e.1 ∈ vis
  sorted : queue.Pairwise (fun e1 e2 => e1.2.1.length ≤ e2.2.1.length)
  within_one : ∀ e1 ∈ queue, ∀ e2 ∈ queue, e1.2.1.length ≤ e2.2.1.length + 1
  closure : ∀ hd tl, queue = hd :: tl → ∀ v q rq,
    ValidPath g s v q rq → q.length < hd.2.1.length → v ∈ vis
  entry_opt : ∀ e ∈ queue, ∀ q rq, ValidPath g s e.1 q rq →
    e.2.1.length ≤ q.length
  expanded : ∀ v ∈ vis, (∀ e ∈ queue, e.1 ≠ v) →
    ∀ nw ∈ adjOf g v, nw.1 ∈ vis
  nodes_nodup : (queue.map (fun e => e.1)).Nodup

/-- Any node reachable by a chain no longer than the head entry's path is
already visited (the head path length is the current BFS frontier depth). -/
lemma short_path_vis {g : CurrencyGraph} {s : ℕ} {hd : BfsEntry}
    {tl : List BfsEntry} {vis : Finset ℕ} (inv : BfsInv g s (hd :: tl) vis) :
    ∀ v q rq, ValidPath g s v q rq → q.length ≤ hd.2.1.length → v ∈ vis := by
  intro v q rq hq hlen
  by_cases hlt : q.length < hd.2.1.length
  · exact inv.closure hd tl rfl v q rq hq hlt
  · by_cases h1 : q.length = 1
    · rw [validPath_length_one hq h1]
      exact inv.src_vis
    · have h2 : 2 ≤ q.length := by
        have hne := validPath_nonempty hq
        have hpos : 0 < q.length := List.length_pos.mpr hne
        omega
      obtain ⟨q₀, u, r₀, wt, hq₀, hqe, he, hlen0⟩ := validPath_unsnoc hq h2
      have hu_vis : u ∈ vis := inv.closure hd tl rfl u q₀ r₀ hq₀ (by omega)
      have hu_notin : ∀ e ∈ hd :: tl, e.1 ≠ u := by
        intro e he' hc
        have hopt := inv.entry_opt e he' q₀ r₀ (by rw [hc]; exact hq₀)
        have hsorted : hd.2.1.length ≤ e.2.1.length := by
          rcases List.mem_cons.mp he' with h | h
          · rw [h]
          · exact (List.pairwise_cons.mp inv.sorted).1 e h
        omega
      exact inv.expanded u hu_vis hu_notin (v, wt) (lookupAdj_mem _ v wt he)

/-- Popping a non-target head and expanding its neighbours preserves the
invariant. -/
lemma bfsInv_step {g : CurrencyGraph} {s : ℕ} (c : ℕ) (pc : List ℕ) (rc : ℚ)
    (tl : List BfsEntry) (vis : Finset ℕ)
    (inv : BfsInv g s ((c, pc, rc) :: tl) vis) :
    BfsInv g s (tl ++ (freshEntries pc rc vis (adjOf g c)).1)
      (freshEntries pc rc vis (adjOf g c)).2 := by
  have hvsub : vis ⊆ (freshEntries pc rc vis (adjOf g c)).2 :=
    freshEntries_vis_subset pc rc (adjOf g c) vis
  have hdvalid : ValidPath g s c pc rc :=
    (inv.entries_ok (c, pc, rc) (by simp)).1
  have hnew : ∀ e ∈ (freshEntries pc rc vis (adjOf g c)).1,
      ValidPath g s e.1 e.2.1 e.2.2 ∧ e.2.1.length = pc.length + 1 ∧
        e.1 ∉ vis := by
    intro e he
    obtain ⟨w, hw, hee, hv⟩ :=
      freshEntries_entry_spec pc rc (adjOf g c) vis e he
    obtain ⟨n, pe, re⟩ := e
    simp only [Prod.mk.injEq] at hee
    obtain ⟨-, hpe, hre⟩ := hee
    subst hpe
    subst hre
    exact ⟨validPath_snoc hdvalid hw, by simp, hv⟩
  have htl_le : ∀ e ∈ tl, pc.length ≤ e.2.1.length :=
    fun e h => (List.pairwise_cons.mp inv.sorted).1 e h
  have htl_ub : ∀ e ∈ tl, e.2.1.length ≤ pc.length + 1 :=
    fun e h => inv.within_one e (List.mem_cons_of_mem _ h) (c, pc, rc) (by simp)
  refine ⟨hvsub inv.src_vis, ?_, ?_, ?_, ?_, ?_, ?_, ?_⟩
  · intro e he
    rcases List.mem_append.mp he with h | h
    · exact ⟨(inv.entries_ok e (List.mem_cons_of_mem _ h)).1,
        hvsub (inv.entries_ok e (List.mem_cons_of_mem _ h)).2⟩
    · refine ⟨(hnew e h).1, ?_⟩
      rw [freshEntries_vis_iff]
      exact Or.inr ⟨e, h, rfl⟩
  · rw [List.pairwise_append]
    refine ⟨(List.pairwise_cons.mp inv.sorted).2, ?_, ?_⟩
    · exact List.pairwise_of_forall_mem_list
        (fun e1 h1 e2 h2 => by rw [(hnew e1 h1).2.1, (hnew e2 h2).2.1])
    · intro e1 h1 e2 h2
      rw [(hnew e2 h2).2.1]
      exact htl_ub e1 h1
  · intro e1 h1 e2 h2
    rcases List.mem_append.mp h1 with h1 | h1 <;>
      rcases List.mem_append.mp h2 with h2 | h2
    · exact inv.within_one e1 (List.mem_cons_of_mem _ h1) e2
        (List.mem_cons_of_mem _ h2)
    · rw [(hnew e2 h2).2.1]
      have := htl_ub e1 h1
      omega
    · rw [(hnew e1 h1).2.1]
      have := htl_le e2 h2
      omega
    · rw [(hnew e1 h1).2.1, (hnew e2 h2).2.1]
      omega
  · intro hd' tl' heq v q rq hvq hlen
    have hd'_mem : hd' ∈ tl ++ (freshEntries pc rc vis (adjOf g c)).1 := by
      rw [heq]
      simp
    have hbound : hd'.2.1.length ≤ pc.length + 1 := by
      rcases List.mem_append.mp hd'_mem with h | h
      · exact htl_ub hd' h
      · rw [(hnew hd' h).2.1]
    exact hvsub (short_path_vis inv v q rq hvq (show q.length ≤ pc.length by omega))
  · intro e he q rq hq
    rcases List.mem_append.mp he with h | h
    · exact inv.entry_opt e (List.mem_cons_of_mem _ h) q rq hq
    · rw [(hnew e h).2.1]
      by_contra hlt
      push_neg at hlt
      exact (hnew e h).2.2
        (short_path_vis inv e.1 q rq hq (show q.length ≤ pc.length by omega))
  · intro v hv hnq
    rcases (freshEntries_vis_iff pc rc (adjOf g c) vis v).mp hv with
      hv' | ⟨e, he, hex⟩
    · by_cases hold : ∀ e ∈ (c, pc, rc) :: tl, e.1 ≠ v
      · intro nw hnw
        exact hvsub (inv.expanded v hv' hold nw hnw)
      · push_neg at hold
        obtain ⟨e, he, hev⟩ := hold
        rcases List.mem_cons.mp he with he | he
        · subst he
          intro nw hnw
          rw [← hev] at hnw
          exact freshEntries_adj_vis pc rc (adjOf g c) vis nw hnw
        · exact absurd hev (hnq e (List.mem_append_left _ he))
    · exact absurd hex (hnq e (List.mem_append_right _ he))
  · rw [List.map_append, List.nodup_append]
    refine ⟨(List.nodup_cons.mp inv.nodes_nodup).2, ?_, ?_⟩
    · exact freshEntries_nodes_nodup pc rc (adjOf g c) vis
    · intro x hx1 hx2
      rw [List.mem_map] at hx1 hx2
      obtain ⟨e1, he1, hex1⟩ := hx1
      obtain ⟨e2, he2, hex2⟩ := hx2
      have h1vis : e1.1 ∈ vis :=
        (inv.entries_ok e1 (List.mem_cons_of_mem _ he1)).2
      have h2vis : e2.1 ∉ vis := (hnew e2 he2).2.2
      rw [hex1] at h1vis
      rw [hex2] at h2vis
      exact h2vis h1vis

/-- Any result of the BFS loop under the invariant is a valid chain from the
source to the target, carries the composed rate of that chain, and has
minimal length among all such chains. -/
lemma bfsAux_sound_min (g : CurrencyGraph) (s t : ℕ) :
    ∀ (fuel : ℕ) (queue : List BfsEntry) (vis : Finset ℕ) (p : List ℕ) (r : ℚ),
      BfsInv g s queue vis → bfsAux g t fuel queue vis = some (p, r) →
      ValidPath g s t p r ∧
        ∀ q rq, ValidPath g s t q rq → p.length ≤ q.length := by
  intro fuel
  induction fuel with
  | zero => intro queue vis p r _ h; cases h
  | succ n ih =>
    intro queue vis p r inv h
    cases queue with
    | nil => cases h
    | cons hd tl =>
      obtain ⟨c, pc, rc⟩ := hd
      simp only [bfsAux] at h
      by_cases hc : c = t
      · rw [if_pos hc] at h
        simp only [Option.some.injEq, Prod.mk.injEq] at h
        obtain ⟨hp, hr⟩ := h
        subst hc
        constructor
        · have hvp := (inv.entries_ok (c, pc, rc) (by simp)).1
          rw [hp, hr] at hvp
          exact hvp
        · intro q rq hv
          have hopt := inv.entry_opt (c, pc, rc) (by simp) q rq hv
          rw [hp] at hopt
          exact hopt
      · rw [if_neg hc] at h
        rw [foldl_expandStep pc rc (adjOf g c) tl vis] at h
        exact ih _ _ p r (bfsInv_step c pc rc tl vis inv) h

/-- The invariant holds at BFS start-up, for any graph and source. -/
lemma bfsInv_init (g : CurrencyGraph) (s : ℕ) :
    BfsInv g s [(s, [s], (1:ℚ))] {s} := by
  have hvp : ValidPath g s s [s] 1 := ⟨rfl, rfl, rfl⟩
  refine ⟨Finset.mem_singleton_self s, ?_, ?_, ?_, ?_, ?_, ?_, ?_⟩
  · intro e he
    simp only [List.mem_singleton] at he
    subst he
    exact ⟨hvp, Finset.mem_singleton_self s⟩
  · exact List.pairwise_singleton _ _
  · intro e1 h1 e2 h2
    simp only [List.mem_singleton] at h1 h2
    subst h1
    subst h2
    omega
  · intro hd tl heq v q rq hv hlen
    simp only [List.cons.injEq] at heq
    obtain ⟨hhd, -⟩ := heq
    subst hhd
    have hne := validPath_nonempty hv
    have hpos : 0 < q.length := List.length_pos.mpr hne
    simp only [List.length_singleton] at hlen
    omega
  · intro e he q rq hv
    simp only [List.mem_singleton] at he
    subst he
    have hne := validPath_nonempty hv
    have hpos : 0 < q.length := List.length_pos.mpr hne
    simp only [List.length_singleton]
    omega
  · intro v hv hq
    rw [Finset.mem_singleton] at hv
    subst hv
    exact absurd rfl (hq (v, [v], 1) (by simp))
  · simp

/-- **C4.** Whenever the path search returns a result, the returned list is a
chain of graph edges from the source to the target, the returned rate is the
product of the edge weights along it seeded at `1` (exact rational
arithmetic), and the path has the minimum number of edges among all chains
between the two nodes — the defining property of the first path found by
breadth-first search; in particular, on the graph built from rates
USD→EUR = 0.9 and EUR→GBP = 0.8 (nodes 1, 2, 3) the search returns the path
`[USD, EUR, GBP]` with composed rate exactly `0.72`. -/
theorem find_conversion_path_bfs_shortest :
    (∀ (g : CurrencyGraph) (s t : ℕ) (p : List ℕ) (r : ℚ),
      _find_conversion_path g s t = (some p, some r) →
      ValidPath g s t p r ∧
        ∀ q rq, ValidPath g s t q rq → p.length ≤ q.length) ∧
    (_build_currency_graph
        [⟨1, 2, (9:ℚ)/10, 0, true⟩, ⟨2, 3, (8:ℚ)/10, 0, true⟩]).map
      (fun g => _find_conversion_path g 1 3) =
      .ok (some [1, 2, 3], some ((72:ℚ)/100)) := by
  constructor
  · intro g s t p r h
    unfold _find_conversion_path at h
    by_cases hm : ((lookupNode g s).isNone || (lookupNode g t).isNone) = true
    · rw [if_pos hm] at h
      simp at h
    · rw [if_neg hm] at h
      cases hb : bfsAux g t (bfsFuel g) [(s, [s], 1)] {s} with
      | none => rw [hb] at h; simp at h
      | some pr =>
        rw [hb] at h
        obtain ⟨p', r'⟩ := pr
        simp only [Prod.mk.injEq, Option.some.injEq] at h
        obtain ⟨hp, hr⟩ := h
        subst hp
        subst hr
        exact bfsAux_sound_min g s t (bfsFuel g) _ _ p' r' (bfsInv_init g s) hb
  · with_unfolding_all rfl

/-- Witness for C4: the returned concrete path is a valid chain with the
claimed composed rate (the minimality clause is instantiated at the same
input inside the proof). -/
theorem find_conversion_path_bfs_shortest_witness :
    ValidPath
      [(1, [(2, (9:ℚ)/10)]), (2, [(1, 1/((9:ℚ)/10)), (3, (8:ℚ)/10)]),
        (3, [(2, 1/((8:ℚ)/10))])]
      1 3 [1, 2, 3] ((72:ℚ)/100) :=
  (find_conversion_path_bfs_shortest.1
    [(1, [(2, (9:ℚ)/10)]), (2, [(1, 1/((9:ℚ)/10)), (3, (8:ℚ)/10)]),
      (3, [(2, 1/((8:ℚ)/10))])]
    1 3 [1, 2, 3] ((72:ℚ)/100) (by with_unfolding_all rfl)).1

/-- **C9.** When either endpoint is missing from the graph, or no chain of
edges connects the source to the target, the path search returns the
"no path" result `(None, None)`; as a total function of the embedding it
raises no error. -/
theorem no_path_returns_none (g : CurrencyGraph) (s t : ℕ)
    (h : lookupNode g s = none ∨ lookupNode g t = none ∨
      ∀ (p : List ℕ) (r : ℚ), ¬ ValidPath g s t p r) :
    _find_conversion_path g s t = (none, none) := by
  unfold _find_conversion_path
  rcases h with h | h | h
  · rw [if_pos (by simp [h])]
  · rw [if_pos (by simp [h])]
  · by_cases hm : ((lookupNode g s).isNone || (lookupNode g t).isNone) = true
    · rw [if_pos hm]
    · rw [if_neg hm]
      cases hb : bfsAux g t (bfsFuel g) [(s, [s], 1)] {s} with
      | none => rfl
      | some pr =>
        obtain ⟨p, r⟩ := pr
        have hvp :=
          (bfsAux_sound_min g s t (bfsFuel g) _ _ p r (bfsInv_init g s) hb).1
        exact absurd hvp (h p r)

/-- Witness for C9: both endpoints absent from the empty graph. -/
theorem no_path_returns_none_witness :
    _find_conversion_path [] 1 2 = (none, none) :=
  no_path_returns_none [] 1 2 (Or.inl rfl)
